import Mathlib

/-!
Verification of the schema-registry component of the bstore embedded database
(src/register.go) against its natural-language specification.

The Go source is shallowly embedded: the reflected shape of a declared Go
struct is represented by the mutually inductive `FieldType`/`Field` types
(mirroring the Go `fieldType`/`field` structs), persisted schemas by
`TypeVersion` (mirroring `typeVersion`), and each Go function relevant to the
claims is translated into an executable Lean function carrying the source
location in its doc comment.  Go nil-pointer dereferences (which panic at
runtime) are made explicit: functions that can hit one return a `RRes`
value whose `panic` constructor marks that path.
-/

namespace BStore

/-- The field kinds of bstore (the Go `kind` enumeration used throughout
src/register.go: kindBool, kindInt8, ..., kindMap, kindSlice, kindStruct). -/
inductive Kind where
  | kbool
  | kint
  | kint8
  | kint16
  | kint32
  | kint64
  | kuint
  | kuint8
  | kuint16
  | kuint32
  | kuint64
  | kfloat32
  | kfloat64
  | kstring
  | kbytes
  | kbinaryMarshal
  | ktime
  | kslice
  | kmap
  | kstruct
  deriving DecidableEq, Repr, Fintype

mutual

/-- Embeds the Go struct `fieldType` (Ptr, Kind, MapKey, MapValue, List,
Fields).  The Go fields `MapKey`, `MapValue` and `List` are pointers that are
nil except for map/slice kinds; they are embedded as `Option FieldType`. -/
inductive FieldType where
  | mk (ptr : Bool) (kind : Kind) (mapKey mapValue listElem : Option FieldType)
      (fields : List Field) : FieldType

/-- Embeds the Go struct `field` (Name, Type, Nonzero, References, Default);
the reflect-specific members (structField, indices) carry no schema content
and are omitted. -/
inductive Field where
  | mk (name : String) (type : FieldType) (nonzero : Bool)
      (references : List String) (default : String) : Field

end

def FieldType.ptr : FieldType → Bool
  | .mk p _ _ _ _ _ => p

def FieldType.kind : FieldType → Kind
  | .mk _ k _ _ _ _ => k

def FieldType.mapKey : FieldType → Option FieldType
  | .mk _ _ mkey _ _ _ => mkey

def FieldType.mapValue : FieldType → Option FieldType
  | .mk _ _ _ mval _ _ => mval

def FieldType.listElem : FieldType → Option FieldType
  | .mk _ _ _ _ lst _ => lst

def FieldType.fields : FieldType → List Field
  | .mk _ _ _ _ _ fs => fs

def Field.name : Field → String
  | .mk n _ _ _ _ => n

def Field.type : Field → FieldType
  | .mk _ t _ _ _ => t

def Field.nonzero : Field → Bool
  | .mk _ _ nz _ _ => nz

/-- Embeds the Go struct `index` (Unique, Name, Fields); the back pointer
`tv` is omitted. -/
structure Index where
  unique : Bool
  name : String
  fields : List Field

/-- Embeds the Go struct `typeVersion`.  The Go map `Indices` is embedded as
an association list keyed by `Index.name`; `ReferencedBy` and `references`
as lists of type names.  The reflect-only members are omitted. -/
structure TypeVersion where
  version : Nat
  ondiskVersion : Nat
  noauto : Bool
  fields : List Field
  indices : List Index
  referencedBy : List String
  references : List String

/-- Error classes of bstore that the embedded functions can produce
(ErrType, ErrParam, ErrStore, ErrUnique, ErrIncompatible, plus the
`internal error` returns). -/
inductive BErr where
  | errType
  | errParam
  | errStore
  | errUnique
  | errIncompatible
  | internal
  deriving DecidableEq, Repr

/-- Result of a Go function returning `(α, error)` whose body can also hit a
nil-pointer dereference: `panic` marks that runtime panic, `err` an error
return, `ok` a normal return. -/
inductive RRes (α : Type) where
  | panic
  | err
  | ok (a : α)
  deriving DecidableEq, Repr

/-! ## Structural equality of schemas: `typeEqual` (register.go:966-1045) -/

mutual

/-- Embeds `fieldType.typeEqual` (register.go:1011-1030).  The Go code
dereferences `nft.MapKey`/`nft.MapValue`/`nft.List` unguarded once the
corresponding pointer on the receiver is non-nil; on well-formed schemas the
kinds match so both sides are present, and the impossible mixed cases are
mapped to `false` here. -/
def FieldType.typeEqual : FieldType → FieldType → Bool
  | .mk p k mkey mval lst fs, .mk p2 k2 mkey2 mval2 lst2 fs2 =>
    if p != p2 || k != k2 then false
    else if fs.length != fs2.length then false
    else
      fieldsTypeEqual fs fs2 &&
      (match mkey, mkey2, mval, mval2 with
       | none, _, _, _ => true
       | some a, some b, some va, some vb => a.typeEqual b && va.typeEqual vb
       | some _, _, _, _ => false) &&
      (match lst, lst2 with
       | none, _ => true
       | some a, some b => a.typeEqual b
       | some _, none => false)

/-- Embeds `field.typeEqual` (register.go:996-1009): name, type, nonzero,
default and the references list must all agree. -/
def Field.typeEqual : Field → Field → Bool
  | .mk n t nz refs d, .mk n2 t2 nz2 refs2 d2 =>
    n == n2 && t.typeEqual t2 && nz == nz2 && d == d2 && refs == refs2

/-- The element-wise loop over the `Fields` slices inside the two
`typeEqual` functions (register.go:976-980, 1018-1022). -/
def fieldsTypeEqual : List Field → List Field → Bool
  | [], [] => true
  | f :: fs, g :: gs => f.typeEqual g && fieldsTypeEqual fs gs
  | _, _ => false

end

/-- Lookup in the Go map `Indices` (keyed by index name). -/
def lookupIndex (l : List Index) (iname : String) : Option Index :=
  l.find? (fun idx => idx.name == iname)

/-- Embeds `index.typeEqual` (register.go:1032-1045). -/
def Index.typeEqual (idx nidx : Index) : Bool :=
  idx.unique == nidx.unique && idx.name == nidx.name &&
    idx.fields.length == nidx.fields.length && fieldsTypeEqual idx.fields nidx.fields

/-- Embeds `typeVersion.typeEqual` (register.go:966-994): OndiskVersion,
Noauto, the field list and the index map must agree; Version, Name and
ReferencedBy are not compared. -/
def TypeVersion.typeEqual (tv ntv : TypeVersion) : Bool :=
  tv.ondiskVersion == ntv.ondiskVersion &&
  tv.noauto == ntv.noauto &&
  tv.fields.length == ntv.fields.length &&
  fieldsTypeEqual tv.fields ntv.fields &&
  tv.indices.length == ntv.indices.length &&
  tv.indices.all (fun idx =>
    match lookupIndex ntv.indices idx.name with
    | none => false
    | some nidx => idx.typeEqual nidx)

/-! ## Schema compatibility: `hasNonzeroField` and `compatible`
(register.go:1082-1195) -/

mutual

/-- Embeds `fieldType.hasNonzeroField` (register.go:1178-1195) exactly as
written: for `kindMap` the source reads `ft.List` and for `kindSlice` it
reads `ft.MapValue`.  Both of those pointers are nil for those kinds
(gatherFieldType only sets `List` on slices and `MapKey`/`MapValue` on
maps), so those branches dereference nil in Go; that outcome is `none`
here, `some b` is a normal boolean return. -/
def FieldType.hasNonzeroField : FieldType → Bool → Option Bool
  | .mk p k _mkey mval lst fs, stopAtPtr =>
    if p && stopAtPtr then some false
    else
      match k with
      | .kmap =>
        match lst with
        | none => none
        | some x => x.hasNonzeroField true
      | .kslice =>
        match mval with
        | none => none
        | some x => x.hasNonzeroField true
      | .kstruct => fieldsHasNonzero fs
      | _ => some false

/-- The loop over struct fields inside `hasNonzeroField`
(register.go:1187-1192): `f.Nonzero || f.Type.hasNonzeroField(true)` with
Go short-circuit evaluation. -/
def fieldsHasNonzero : List Field → Option Bool
  | [] => some false
  | .mk _ t nz _ _ :: fs =>
    if nz then some true
    else
      match t.hasNonzeroField true with
      | none => none
      | some true => some true
      | some false => fieldsHasNonzero fs

end

/-- The `need` closure inside `compatible` (register.go:1083-1090): accept
iff the new kind is in the list, with the given index-recreate flag. -/
def need (nk : Kind) (incr : Bool) (l : List Kind) : RRes Bool :=
  if l.contains nk then .ok incr else .err

mutual

/-- Embeds `fieldType.compatible` (register.go:1082-1176).  All error
returns of the Go function are `ErrIncompatible`-class (its direct callers
wrap them in `ErrIncompatible`), so the embedding keeps a single `err`
constructor.  The map and slice cases dereference the `MapKey`/`MapValue`/
`List` pointers of both sides unguarded in Go; a nil there is `panic`. -/
def FieldType.compatible : FieldType → FieldType → RRes Bool
  | .mk p k mkey mval lst fs, .mk np nk nmkey nmval nlst nfs =>
    -- register.go:1095-1100: refuse ptr → non-ptr when the new type has a
    -- nonzero field underneath.
    match (if p && !np && k == nk
           then FieldType.hasNonzeroField (.mk np nk nmkey nmval nlst nfs) false
           else some false) with
    | none => .panic
    | some true => .err
    | some false =>
      match k with
      | .kbytes => need nk false [k]
      | .kbool => need nk false [k]
      | .kbinaryMarshal => need nk false [k]
      | .kstring => need nk false [k]
      | .kfloat32 => need nk false [k]
      | .kfloat64 => need nk false [k]
      | .ktime => need nk false [k]
      | .kint8 =>
        if nk == k then .ok false
        else need nk true [.kint16, .kint32, .kint, .kint64]
      | .kint16 =>
        if nk == k then .ok false
        else need nk true [.kint32, .kint, .kint64]
      | .kint32 =>
        if nk == k then .ok false
        else need nk true [.kint32, .kint, .kint64]
      | .kint =>
        if nk == k then .ok false
        else need nk true [.kint32, .kint, .kint64]
      | .kint64 => need nk false [.kint64]
      | .kuint8 =>
        if nk == k then .ok false
        else need nk true [.kuint16, .kuint32, .kuint, .kuint64]
      | .kuint16 =>
        if nk == k then .ok false
        else need nk true [.kuint32, .kuint, .kuint64]
      | .kuint32 =>
        if nk == k then .ok false
        else need nk true [.kuint32, .kuint, .kuint64]
      | .kuint =>
        if nk == k then .ok false
        else need nk true [.kuint32, .kuint, .kuint64]
      | .kuint64 => need nk false [.kuint64]
      | .kmap =>
        if nk != .kmap then .err
        else
          match mkey, nmkey with
          | some a, some na =>
            match a.compatible na with
            | .panic => .panic
            | .err => .err
            | .ok _ =>
              match mval, nmval with
              | some b, some nb =>
                match b.compatible nb with
                | .panic => .panic
                | .err => .err
                | .ok _ => .ok false
              | _, _ => .panic
          | _, _ => .panic
      | .kslice =>
        if nk != .kslice then .err
        else
          match lst, nlst with
          | some a, some na =>
            match a.compatible na with
            | .panic => .panic
            | .err => .err
            | .ok _ => .ok false
          | _, _ => .panic
      | .kstruct =>
        if nk != .kstruct then .err
        else structFieldsCompatible fs nfs

/-- The loop over the new struct's fields inside `compatible`'s
`kindStruct` case (register.go:1162-1172): for each new field, the first
old field with the same name (inner loop with `break`) is checked for
compatibility; a new field without an old counterpart is skipped. -/
def structFieldsCompatible (fs : List Field) : List Field → RRes Bool
  | [] => .ok false
  | .mk nname ntype _ _ _ :: rest =>
    match fs.find? (fun f => f.name == nname) with
    | none => structFieldsCompatible fs rest
    | some f =>
      match f.type.compatible ntype with
      | .panic => .panic
      | .err => .err
      | .ok _ => structFieldsCompatible fs rest

end

/-! ## Claim C3: permitted kind changes -/

/-- A field type of a scalar kind: no pointer, no components. -/
def scalarFT (k : Kind) : FieldType := .mk false k none none none []

/-- The signed integer kind family. -/
def intFamily : List Kind := [.kint8, .kint16, .kint32, .kint, .kint64]

/-- The unsigned integer kind family. -/
def uintFamily : List Kind := [.kuint8, .kuint16, .kuint32, .kuint, .kuint64]

/-- On-disk width in bits of the integer kinds; the width-agnostic int and
uint are stored at 32 bits (spec section 4.1). -/
def kindWidth : Kind → Nat
  | .kint8 | .kuint8 => 8
  | .kint16 | .kuint16 => 16
  | .kint32 | .kuint32 | .kint | .kuint => 32
  | .kint64 | .kuint64 => 64
  | _ => 0

/-- The claim's permitted kind changes: integer widenings within the same
signedness family (on-disk width does not decrease). -/
def claimWiden (k nk : Kind) : Bool :=
  ((intFamily.contains k && intFamily.contains nk) ||
   (uintFamily.contains k && uintFamily.contains nk)) &&
  kindWidth k ≤ kindWidth nk

/-! ## Claim C5: pointer to non-pointer with nonzero fields underneath -/

mutual

/-- Modelled from the spec: the intended `hasNonzeroField` of
register.go:1178-1195, which the spec describes as rejecting a
pointer-to-value change "if the kind has a nonzero field underneath",
recursively through structs, slices and maps.  It consults the slice's
element type for slices and the map's value type for maps — the shapes the
embedded `FieldType.hasNonzeroField` reads swapped (slice element for maps,
map value for slices, both nil for those kinds). -/
def hasNonzeroFieldSpec : FieldType → Bool → Bool
  | .mk p k _mkey mval lst fs, stopAtPtr =>
    if p && stopAtPtr then false
    else
      match k with
      | .kmap =>
        match mval with
        | none => false
        | some x => hasNonzeroFieldSpec x true
      | .kslice =>
        match lst with
        | none => false
        | some x => hasNonzeroFieldSpec x true
      | .kstruct => fieldsHasNonzeroSpec fs
      | _ => false

/-- Modelled from the spec: the struct-field loop of the intended
`hasNonzeroField`. -/
def fieldsHasNonzeroSpec : List Field → Bool
  | [] => false
  | .mk _ t nz _ _ :: fs => nz || hasNonzeroFieldSpec t true || fieldsHasNonzeroSpec fs

end

/-- A struct shape with a nonzero-constrained field underneath:
struct { X int `bstore:"nonzero"` }. -/
def exNonzeroStruct : FieldType :=
  .mk false .kstruct none none none
    [.mk "X" (.mk false .kint none none none []) true [] ""]

/-- The slice shape []struct{ X int nonzero }. -/
def exSliceNZ : FieldType := .mk false .kslice none none (some exNonzeroStruct) []

/-- The pointer shape *[]struct{ X int nonzero }. -/
def exSliceNZPtr : FieldType := .mk true .kslice none none (some exNonzeroStruct) []

/-- The map shape map[string]struct{ X int nonzero }. -/
def exMapNZ : FieldType :=
  .mk false .kmap (some (.mk false .kstring none none none [])) (some exNonzeroStruct) none []

/-- The pointer shape *map[string]struct{ X int nonzero }. -/
def exMapNZPtr : FieldType :=
  .mk true .kmap (some (.mk false .kstring none none none [])) (some exNonzeroStruct) none []

/-- The pointer shape *struct{ X int nonzero }. -/
def exStructNZPtr : FieldType := .mk true .kstruct none none none
  [.mk "X" (.mk false .kint none none none []) true [] ""]

/-! ## Claim C9: kinds allowed in an index or unique tag -/

/-- Embeds the per-field validation in the `addIndex` closure of
`gatherTypeVersion` (register.go:569-578): an index/unique field must not
be a pointer, and its kind must be bool, one of the signed or unsigned
integer kinds, string or time; everything else is an `ErrType` error. -/
def addIndexFieldCheck (f : Field) : Except BErr Unit :=
  if f.type.ptr then .error .errType
  else
    match f.type.kind with
    | .kbool | .kint8 | .kint16 | .kint32 | .kint64 | .kint
    | .kuint8 | .kuint16 | .kuint32 | .kuint64 | .kuint
    | .kstring | .ktime => .ok ()
    | _ => .error .errType

/-- The claim's description of index-eligible kinds: bool, a signed or
unsigned integer, string, or timestamp. -/
def allowedIndexKind (k : Kind) : Bool :=
  k == .kbool || intFamily.contains k || uintFamily.contains k ||
    k == .kstring || k == .ktime

/-! ## Big-endian keys and the types bucket (register.go:17-19, 99-193,
492-525) -/

/-- register.go:17-19: the only on-disk schema format version the code
knows. -/
def ondiskVersion1 : Nat := 1

/-- Modelled from the spec (the key codec of keys.go is not under src):
order-preserving big-endian encoding of an unsigned integer at a fixed
width of `w` bytes, most significant byte first.  Also the embedding of
`binary.BigEndian.AppendUint32` at `w = 4` (register.go:523). -/
def encodeBE : Nat → Nat → List Nat
  | 0, _ => []
  | w + 1, n => n / 256 ^ w :: encodeBE w (n % 256 ^ w)

/-- Modelled from the spec: decoding a big-endian byte string back to the
unsigned integer (the integer case of parsePK, and
`binary.BigEndian.Uint32` at width 4, register.go:496). -/
def decodeBE : List Nat → Nat
  | [] => 0
  | b :: bs => b * 256 ^ bs.length + decodeBE bs

/-- Embeds `parseSchema` (register.go:492-512).  The JSON unmarshal is
abstracted: the bucket value is given already decoded as a `TypeVersion`,
and the checks performed after decoding are embedded: the key must be 4
bytes, the version stored in the key must match the schema's version, and
the schema's OndiskVersion must be `ondiskVersion1`. -/
def parseSchema (bk : List Nat) (bv : TypeVersion) : Except BErr TypeVersion :=
  if bk.length != 4 then .error .errStore
  else if bv.version != decodeBE bk then .error .errStore
  else if bv.ondiskVersion != ondiskVersion1 then .error .internal
  else .ok bv

/-- Embeds `packSchema` (register.go:515-525) up to the JSON marshal: an
OndiskVersion other than `ondiskVersion1` is refused, and the types-bucket
key is the 4-byte big-endian version. -/
def packSchema (tv : TypeVersion) : Except BErr (List Nat × TypeVersion) :=
  if tv.ondiskVersion != ondiskVersion1 then .error .internal
  else .ok (encodeBE 4 tv.version, tv)

/-- The state built by the `tb.ForEach` loop of Register
(register.go:99-114): the parsed schema versions (`st.Versions`) and the
highest one seen so far (`st.Current`). -/
structure SchemaLoad where
  versions : List (Nat × TypeVersion)
  current : Option TypeVersion

/-- Embeds the `tb.ForEach` loop of Register (register.go:99-114): each
types-bucket entry is parsed with `parseSchema`, a duplicate version is an
`ErrStore` error, and `current` tracks the entry with the highest
version. -/
def loadSchemasGo : SchemaLoad → List (List Nat × TypeVersion) → Except BErr SchemaLoad
  | acc, [] => .ok acc
  | acc, (bk, bv) :: rest =>
    match parseSchema bk bv with
    | .error e => .error e
    | .ok otv =>
      if acc.versions.any (fun p => p.1 == otv.version) then .error .errStore
      else
        loadSchemasGo
          ⟨acc.versions ++ [(otv.version, otv)],
           match acc.current with
           | none => some otv
           | some c => if otv.version > c.version then some otv else some c⟩
          rest

/-- Reading all stored type definitions of one type (register.go:98-117),
starting from the empty `storeType`. -/
def loadSchemas (tb : List (List Nat × TypeVersion)) : Except BErr SchemaLoad :=
  loadSchemasGo ⟨[], none⟩ tb

/-- Result of the version decision for one registered type: the version
number given to the candidate typeVersion and the resulting contents of the
types bucket. -/
structure VersionDecision where
  version : Nat
  typesBucket : List (List Nat × TypeVersion)

/-- Embeds the version decision of Register (register.go:119-133 and 190):
after loading the stored schemas, if there is no current version or the
current one is not `typeEqual` to the candidate, the candidate gets version
1 (no stored version) or `Current.Version + 1` and its packed schema is
put into the types bucket; otherwise the previous version number is reused
and the bucket is left untouched. -/
def registerVersionDecision (tb : List (List Nat × TypeVersion)) (tv : TypeVersion) :
    Except BErr VersionDecision :=
  match loadSchemas tb with
  | .error e => .error e
  | .ok st =>
    match st.current with
    | none =>
      match packSchema { tv with version := 1 } with
      | .error e => .error e
      | .ok kv => .ok ⟨1, tb ++ [kv]⟩
    | some cur =>
      if cur.typeEqual tv then .ok ⟨cur.version, tb⟩
      else
        match packSchema { tv with version := cur.version + 1 } with
        | .error e => .error e
        | .ok kv => .ok ⟨cur.version + 1, tb ++ [kv]⟩

/-- Invariant of the schema-loading loop: `current` is `none` only on the
empty load, and otherwise bounds every loaded version from above. -/
def SchemaInv (st : SchemaLoad) : Prop :=
  (st.current = none → st.versions = []) ∧
  (∀ c, st.current = some c → ∀ p ∈ st.versions, p.1 ≤ c.version)

/-- A one-field primary-key field, int ID. -/
def exPkField : Field := .mk "ID" (.mk false .kint none none none []) false [] ""

/-- A string field Name. -/
def exNameField : Field := .mk "Name" (.mk false .kstring none none none []) false [] ""

/-- A stored schema at version 1: { ID int }. -/
def exTV1 : TypeVersion :=
  { version := 1, ondiskVersion := 1, noauto := false, fields := [exPkField],
    indices := [], referencedBy := [], references := [] }

/-- A candidate with a different shape: { ID int; Name string }. -/
def exTV2 : TypeVersion :=
  { version := 0, ondiskVersion := 1, noauto := false,
    fields := [exPkField, exNameField],
    indices := [], referencedBy := [], references := [] }

/-- A candidate structurally equal to `exTV1` (version numbers are not
compared by `typeEqual`). -/
def exTV1cand : TypeVersion := { exTV1 with version := 0 }

/-- A types bucket holding `exTV1` under its big-endian version key. -/
def exTypesBucket : List (List Nat × TypeVersion) := [(encodeBE 4 1, exTV1)]

/-! ## Claim C4: which index buckets are dropped on a schema change
(register.go:142-155, 344-399, 1051-1076) -/

/-- An index has a member field of the given name (the inner loop of
`Tx.checkTypes`, register.go:1064-1068). -/
def indexHasField (idx : Index) (fname : String) : Bool :=
  idx.fields.any (fun f => f.name == fname)

/-- The names of the indices of `indices` that contain the named field
(the indices recorded in `recreateIndices` for one widened field). -/
def indicesWithField (indices : List Index) (fname : String) : List String :=
  (indices.filter (fun idx => indexHasField idx fname)).map Index.name

/-- Embeds the field loop of `Tx.checkTypes` (register.go:1052-1074): for
each field of the new version, the first old field with the same name is
checked with `compatible`; an error is an `ErrIncompatible` failure, and a
widening (`increase`) records every old index containing the field in
`recreateIndices` (accumulated in `acc`). -/
def checkTypesGo (otv : TypeVersion) : List Field → List String → RRes (List String)
  | [], acc => .ok acc
  | f :: rest, acc =>
    match otv.fields.find? (fun of => of.name == f.name) with
    | none => checkTypesGo otv rest acc
    | some of =>
      match of.type.compatible f.type with
      | .panic => .panic
      | .err => .err
      | .ok incr =>
        checkTypesGo otv rest
          (if incr then acc ++ indicesWithField otv.indices f.name else acc)

/-- Embeds `Tx.checkTypes` (register.go:1051-1076), returning the set of
index names needing recreation. -/
def checkTypes (otv ntv : TypeVersion) : RRes (List String) :=
  checkTypesGo otv ntv.fields []

/-- The names of the index buckets Register deletes for a type whose
typeVersion changes from `otv` to `ntv`: first the buckets of all indices
in `recreateIndices`, which are also removed from the old index map
(register.go:144-155), then every remaining old index that no longer
exists in the new version or is not `typeEqual` to its new counterpart
(register.go:345-368). -/
def registerDroppedIndices (otv ntv : TypeVersion) : RRes (List String) :=
  match checkTypes otv ntv with
  | .panic => .panic
  | .err => .err
  | .ok recreate =>
    let deleted := (otv.indices.filter (fun idx => recreate.contains idx.name)).map Index.name
    let remaining := otv.indices.filter (fun idx => !recreate.contains idx.name)
    let dropped := (remaining.filter (fun idx =>
      match lookupIndex ntv.indices idx.name with
      | none => true
      | some nidx => !idx.typeEqual nidx)).map Index.name
    .ok (deleted ++ dropped)

/-- The names of the index buckets Register creates for the same change:
every new index that is absent from the old index map (after the
`recreateIndices` removal) or differs from its old counterpart
(register.go:371-399). -/
def registerCreatedIndices (otv ntv : TypeVersion) : RRes (List String) :=
  match checkTypes otv ntv with
  | .panic => .panic
  | .err => .err
  | .ok recreate =>
    let remaining := otv.indices.filter (fun idx => !recreate.contains idx.name)
    .ok ((ntv.indices.filter (fun nidx =>
      match lookupIndex remaining nidx.name with
      | none => true
      | some idx => !idx.typeEqual nidx)).map Index.name)

/-- The new field of this name matches an old field whose type change is an
integer widening (`compatible` returned `increase`). -/
def fieldWidened (otv : TypeVersion) (f : Field) : Bool :=
  match otv.fields.find? (fun of => of.name == f.name) with
  | some of => of.type.compatible f.type == .ok true
  | none => false

/-- Some member field of the index was widened by the change from `otv` to
`ntv` (the claim's "an integer field that is a member of the index was
widened"). -/
def memberFieldWidened (otv ntv : TypeVersion) (idx : Index) : Bool :=
  ntv.fields.any (fun f => indexHasField idx f.name && fieldWidened otv f)

/-- The claim's drop condition for the index named `x`: it is an existing
index, and it no longer exists in the new version, or its field list or
uniqueness changed, or a member field was widened. -/
def claimIndexDropped (otv ntv : TypeVersion) (x : String) : Bool :=
  match lookupIndex otv.indices x with
  | none => false
  | some idx =>
    match lookupIndex ntv.indices x with
    | none => true
    | some nidx =>
      idx.unique != nidx.unique ||
      !(idx.fields.length == nidx.fields.length && fieldsTypeEqual idx.fields nidx.fields) ||
      memberFieldWidened otv ntv idx

/-- Membership in the recreate set accumulated by `checkTypesGo`. -/
def WidenedName (otv : TypeVersion) (l : List Field) (x : String) : Prop :=
  ∃ f ∈ l, fieldWidened otv f = true ∧ x ∈ indicesWithField otv.indices f.name

/-- An int8 primary-key field. -/
def exFID8 : Field := .mk "ID" (.mk false .kint8 none none none []) false [] ""

/-- The same field widened to int16. -/
def exFID16 : Field := .mk "ID" (.mk false .kint16 none none none []) false [] ""

/-- A non-unique index over the int8 ID field. -/
def exIdxID8 : Index := ⟨false, "ID", [exFID8]⟩

/-- The same index over the widened ID field. -/
def exIdxID16 : Index := ⟨false, "ID", [exFID16]⟩

/-- An index over the Name field, identical in both versions. -/
def exIdxName : Index := ⟨false, "Name", [exNameField]⟩

/-- Old typeVersion: { ID int8; Name string } with indices ID and Name. -/
def exOtvC4 : TypeVersion :=
  { version := 1, ondiskVersion := 1, noauto := false,
    fields := [exFID8, exNameField], indices := [exIdxID8, exIdxName],
    referencedBy := [], references := [] }

/-- New typeVersion: ID widened to int16, Name index unchanged. -/
def exNtvC4 : TypeVersion :=
  { version := 2, ondiskVersion := 1, noauto := false,
    fields := [exFID16, exNameField], indices := [exIdxID16, exIdxName],
    referencedBy := [], references := [] }

/-! ## Claim C2: index rebuild with sorted bulk insert (register.go:411-486) -/

/-- One index key prepared for bulk insertion (the local `key` struct of
Register, register.go:415-418): the full key bytes and the length of the
key's leading part before the trailing PK encoding (`prek` from
`idx.packKey`). -/
structure IKey where
  buf : List Nat
  pre : Nat
  deriving DecidableEq, Repr

/-- The key bytes excluding the trailing PK encoding (`k.buf[:k.pre]`). -/
def IKey.preBytes (k : IKey) : List Nat := k.buf.take k.pre

/-- Byte-wise lexicographic strict comparison: `bytes.Compare(a, b) < 0`. -/
def lexLt : List Nat → List Nat → Bool
  | [], [] => false
  | [], _ :: _ => true
  | _ :: _, [] => false
  | a :: as, b :: bs => decide (a < b) || (a == b && lexLt as bs)

/-- The comparator used for sorting: not strictly greater, i.e.
`!(bytes.Compare(b, a) < 0)`. -/
def keyLe (a b : IKey) : Prop := (!lexLt b.buf a.buf) = true

instance : DecidableRel keyLe := fun _ _ => inferInstanceAs (Decidable (_ = true))

/-- The sort of Register's index rebuild (register.go:478-480):
`sort.Slice` with `bytes.Compare < 0`; any sorting algorithm satisfying the
sorted-permutation contract — embedded as insertion sort. -/
def sortIndexKeys (keys : List IKey) : List IKey := keys.insertionSort keyLe

/-- Embeds the loop of `insertKeys` (register.go:447-470): keys are
inserted in order, and for a unique index each key's non-PK prefix is
compared with the previous key's; equality aborts with `ErrUnique`.
`prev` is the previously inserted key (`keys[i-1]`).  Returns the inserted
key bytes. -/
def insertKeysGo (uq : Bool) : Option IKey → List IKey → Except BErr (List (List Nat))
  | _, [] => .ok []
  | prev, k :: rest =>
    if uq && (match prev with
              | some p => p.preBytes == k.preBytes
              | none => false)
    then .error .errUnique
    else
      match insertKeysGo uq (some k) rest with
      | .error e => .error e
      | .ok l => .ok (k.buf :: l)

/-- `insertKeys` of Register (register.go:442-472), started with no
previous key. -/
def insertKeys (uq : Bool) (keys : List IKey) : Except BErr (List (List Nat)) :=
  insertKeysGo uq none keys

/-- Two adjacent keys of the list have equal non-PK prefixes. -/
def hasAdjacentDup : List IKey → Bool
  | a :: b :: rest => (a.preBytes == b.preBytes) || hasAdjacentDup (b :: rest)
  | _ => false

/-- Register's rebuild of one index (register.go:474-485): sort all keys,
then bulk-insert them in order. -/
def rebuildIndex (uq : Bool) (keys : List IKey) : Except BErr (List (List Nat)) :=
  insertKeys uq (sortIndexKeys keys)

/-- The previous key prepended, for stating the loop invariant. -/
def withPrev (prev : Option IKey) (l : List IKey) : List IKey :=
  match prev with
  | none => l
  | some p => p :: l

/-- Index keys for two records with distinct prefixes [0,3] and [1,2]
(one trailing PK byte each). -/
def exGoodKeys : List IKey := [⟨[1, 2, 9], 2⟩, ⟨[0, 3, 7], 2⟩]

/-- Index keys for two records sharing the prefix [1,2]. -/
def exDupKeys : List IKey := [⟨[1, 2, 9], 2⟩, ⟨[1, 2, 7], 2⟩]

/-- The byte-wise maximal key of a bucket, starting from a previous
candidate: bolt stores keys in byte order, so `rb.Cursor().Last()`
(register.go:166) is the byte-wise maximum over the stored keys. -/
def lastKeyFrom : Option (List Nat) → List (List Nat) → Option (List Nat)
  | acc, [] => acc
  | none, k :: rest => lastKeyFrom (some k) rest
  | some m, k :: rest => lastKeyFrom (if lexLt m k then some k else some m) rest

/-- The byte-wise maximal key of a bucket (`rb.Cursor().Last()`). -/
def lastKey (keys : List (List Nat)) : Option (List Nat) :=
  lastKeyFrom none keys

/-- The numeric maximum of a list, in the same accumulator shape. -/
def listMaxFrom {α : Type} [LinearOrder α] : Option α → List α → Option α
  | acc, [] => acc
  | none, x :: rest => listMaxFrom (some x) rest
  | some m, x :: rest => listMaxFrom (some (max m x)) rest

/-- The numeric maximum of a list of primary-key values. -/
def listMaxQ {α : Type} [LinearOrder α] (l : List α) : Option α :=
  listMaxFrom none l

/-- Embeds the noauto-to-auto transition of Register (register.go:160-185)
for an unsigned integer primary key: when the stored current version has
Noauto and the candidate does not, the last (byte-wise maximal) key of the
records bucket is parsed back to its numeric value (spec-modelled big-endian
parsePK) and the bucket sequence is set to it; with no records, or when the
transition does not apply, the sequence is unchanged.  `pkKeys` are the
records bucket's keys. -/
def registerNoautoSeqUint (oldNoauto newNoauto : Bool) (pkKeys : List (List Nat))
    (seq : Nat) : Nat :=
  if oldNoauto && !newNoauto then
    match lastKey pkKeys with
    | none => seq
    | some bk => decodeBE bk
  else seq

/-- Half the key range of a signed integer primary key of `w` bytes. -/
def signOffset (w : Nat) : Int := ((256 ^ w / 2 : Nat) : Int)

/-- Modelled from the spec: signed integer PKs are encoded at fixed width
with the sign bit flipped so that byte order equals numeric order —
equivalently, the value shifted by half the range, big-endian. -/
def packPKInt (w : Nat) (x : Int) : List Nat := encodeBE w (x + signOffset w).toNat

/-- Go's `uint64(x)` conversion of a signed integer (two's complement),
applied to the parsed PK at register.go:175. -/
def uint64Cast (x : Int) : Nat := (x % (2 : Int) ^ 64).toNat

/-- register.go:160-185 for a signed integer primary key: the parsed value
of the last record key, converted with `uint64(...)`, becomes the new
sequence. -/
def registerNoautoSeqInt (oldNoauto newNoauto : Bool) (w : Nat)
    (pkKeys : List (List Nat)) (seq : Nat) : Nat :=
  if oldNoauto && !newNoauto then
    match lastKey pkKeys with
    | none => seq
    | some bk => uint64Cast ((decodeBE bk : Int) - signOffset w)
  else seq

/-! ## Claim C6: OndiskVersion (register.go:17-19, 507-509, 535-541) -/

/-- An integer kind (the noauto check of gatherTypeVersion,
register.go:551-557). -/
def isIntKind (k : Kind) : Bool := intFamily.contains k || uintFamily.contains k

/-- Embeds the head of `gatherTypeVersion` (register.go:527-557): a type
needs at least one field, the candidate typeVersion is created with
`OndiskVersion` set to the constant `ondiskVersion1` (register.go:537) with
no dependence on the field graph, and `noauto` requires an integer primary
key.  Tag parsing and the index/reference gathering are embedded
separately. -/
def gatherTypeVersionBase (fields : List Field) (noauto : Bool) :
    Except BErr TypeVersion :=
  match fields with
  | [] => .error .errType
  | pk :: rest =>
    if noauto && !isIntKind pk.type.kind then .error .errType
    else
      .ok { version := 0, ondiskVersion := ondiskVersion1, noauto := noauto,
            fields := pk :: rest, indices := [], referencedBy := [],
            references := [] }

/-- A nested struct shape: struct { X int }. -/
def exC6SubStruct : FieldType :=
  .mk false .kstruct none none none [.mk "X" (.mk false .kint none none none []) false [] ""]

/-- A field list whose field graph references another struct shape. -/
def exC6Fields : List Field := [exPkField, .mk "Sub" exC6SubStruct false [] ""]

/-- The typeVersion gathered for `exC6Fields`. -/
def exC6TV1 : TypeVersion :=
  { version := 0, ondiskVersion := 1, noauto := false, fields := exC6Fields,
    indices := [], referencedBy := [], references := [] }

/-- A stored schema claiming OndiskVersion 2. -/
def exC6TV2 : TypeVersion :=
  { version := 1, ondiskVersion := 2, noauto := false, fields := exC6Fields,
    indices := [], referencedBy := [], references := [] }

/-! ## Claim C8: referenced types must be registered in the same call
(register.go:207-215, 317-329) -/

/-- The per-call registration view of one type: its name, the type names
its fields reference (`tv.references`), and the type names recorded as
referencing it (`Current.ReferencedBy`). -/
structure RegEntry where
  name : String
  references : List String
  referencedBy : List String

/-- Embeds the referenced-types check (register.go:208-215): every type
referenced by a registered type must itself be registered in this call,
else `ErrType`. -/
def checkReferencesRegistered (registered : List RegEntry) : Except BErr Unit :=
  if registered.all (fun st => st.references.all
      (fun n => (registered.map RegEntry.name).contains n))
  then .ok () else .error .errType

/-- Embeds the ReferencedBy check (register.go:323-329): every type
recorded as referencing a registered type must itself be registered in this
call, else `ErrType`. -/
def checkReferencedByRegistered (registered : List RegEntry) : Except BErr Unit :=
  if registered.all (fun st => st.referencedBy.all
      (fun n => (registered.map RegEntry.name).contains n))
  then .ok () else .error .errType

/-- Both checks, in Register's order. -/
def registerReferenceChecks (registered : List RegEntry) : Except BErr Unit :=
  match checkReferencesRegistered registered with
  | .error e => .error e
  | .ok _ => checkReferencedByRegistered registered

/-! ## Claim C10: re-registering an already registered type name
(register.go:88-91, 200-204) -/

/-- Embeds the duplicate-registration check of Register: for each type
value in order, fail with ErrParam when the runtime registry
`db.typeNames` already has an entry for the gathered type's name
(register.go:88-91) — the declared shape is not consulted — and otherwise
add the name to the registry (register.go:200-204). -/
def registerTypeNames : List String → List (String × TypeVersion) →
    Except BErr (List String)
  | typeNames, [] => .ok typeNames
  | typeNames, (n, _) :: rest =>
    if typeNames.contains n then .error .errParam
    else registerTypeNames (typeNames ++ [n]) rest

/-- C3: For every pair of old and new field kinds checked by
`fieldType.compatible`: a kind change is accepted exactly when it is an
integer widening within the same signedness family (and then it flags the
index for recreation); any signedness change, narrowing or other kind
change — float32 to float64 included — is an `ErrIncompatible` error, and
an unchanged non-composite kind is always accepted. -/
theorem compatible_kind_change_iff_integer_widening (k nk : Kind) :
    (k ≠ nk →
      FieldType.compatible (scalarFT k) (scalarFT nk) =
        (if claimWiden k nk then .ok true else .err)) ∧
    (k ≠ .kmap → k ≠ .kslice → k ≠ .kstruct →
      FieldType.compatible (scalarFT k) (scalarFT k) = .ok false) := by
  revert k nk; decide

/-- Witness for C3: the int8 → int16 widening is accepted (with index
recreation), float32 → float64 is refused, int64 → int32 (narrowing) is
refused, int8 → uint16 (signedness change) is refused, and int8 → int8 is
accepted. -/
theorem compatible_kind_change_iff_integer_widening_witness :
    FieldType.compatible (scalarFT .kint8) (scalarFT .kint16) = .ok true ∧
    FieldType.compatible (scalarFT .kfloat32) (scalarFT .kfloat64) = .err ∧
    FieldType.compatible (scalarFT .kint64) (scalarFT .kint32) = .err ∧
    FieldType.compatible (scalarFT .kint8) (scalarFT .kuint16) = .err ∧
    FieldType.compatible (scalarFT .kint8) (scalarFT .kint8) = .ok false := by
  refine ⟨?_, ?_, ?_, ?_, ?_⟩
  · have h := (compatible_kind_change_iff_integer_widening .kint8 .kint16).1 (by decide)
    simpa using h
  · have h := (compatible_kind_change_iff_integer_widening .kfloat32 .kfloat64).1 (by decide)
    simpa using h
  · have h := (compatible_kind_change_iff_integer_widening .kint64 .kint32).1 (by decide)
    simpa using h
  · have h := (compatible_kind_change_iff_integer_widening .kint8 .kuint16).1 (by decide)
    simpa using h
  · exact (compatible_kind_change_iff_integer_widening .kint8 .kint8).2
      (by decide) (by decide) (by decide)

/-- C5 (counter-evidence for the code): on a pointer-to-non-pointer change
of a slice or map shape whose value has a nonzero field underneath, the
compatibility check does not return the intended `ErrIncompatible`: it
dereferences a nil pointer (`hasNonzeroField` reads `List` for maps and
`MapValue` for slices, which are nil for those kinds) and panics, while the
spec-modelled check confirms a nonzero field is underneath; only the struct
shape is rejected as the spec states. -/
theorem compatible_ptr_slice_map_nonzero_panics :
    FieldType.compatible exSliceNZPtr exSliceNZ = .panic ∧
    FieldType.compatible exMapNZPtr exMapNZ = .panic ∧
    hasNonzeroFieldSpec exSliceNZ false = true ∧
    hasNonzeroFieldSpec exMapNZ false = true ∧
    FieldType.compatible exStructNZPtr exNonzeroStruct = .err := by
  decide

/-- C9: a field named in an index/unique tag passes `addIndex`'s check
exactly when it is a non-pointer field of bool, integer, string or
timestamp kind; any other kind — float, bytes, nested struct, slice, map
or binary-marshal included — is an `ErrType` error. -/
theorem addIndexFieldCheck_allowed_kinds (n : String) (p : Bool) (k : Kind)
    (mkey mval lst : Option FieldType) (flds : List Field)
    (nz : Bool) (refs : List String) (d : String) :
    addIndexFieldCheck (.mk n (.mk p k mkey mval lst flds) nz refs d) =
      (cond (!p && allowedIndexKind k) (.ok ()) (.error .errType)) ∧
    (allowedIndexKind .kfloat32 = false ∧ allowedIndexKind .kfloat64 = false ∧
     allowedIndexKind .kbytes = false ∧ allowedIndexKind .kstruct = false ∧
     allowedIndexKind .kslice = false ∧ allowedIndexKind .kmap = false ∧
     allowedIndexKind .kbinaryMarshal = false) := by
  refine ⟨?_, by decide⟩
  cases p <;> cases k <;> rfl

theorem loadSchemasGo_inv (l : List (List Nat × TypeVersion)) :
    ∀ acc st, SchemaInv acc → loadSchemasGo acc l = .ok st →
      SchemaInv st ∧ (st.current = none → acc.current = none ∧ l = []) := by
  induction l with
  | nil =>
    intro acc st hinv h
    simp only [loadSchemasGo] at h
    cases h
    exact ⟨hinv, fun hn => ⟨hn, rfl⟩⟩
  | cons hd rest ih =>
    intro acc st hinv h
    obtain ⟨bk, bv⟩ := hd
    simp only [loadSchemasGo] at h
    cases hps : parseSchema bk bv with
    | error e => simp only [hps] at h; cases h
    | ok otv =>
      simp only [hps] at h
      by_cases hdup : (acc.versions.any fun p => p.1 == otv.version) = true
      · rw [if_pos hdup] at h; cases h
      · rw [if_neg hdup] at h
        have hstep : SchemaInv
            ⟨acc.versions ++ [(otv.version, otv)],
             match acc.current with
             | none => some otv
             | some c => if otv.version > c.version then some otv else some c⟩ := by
          cases hcur : acc.current with
          | none =>
            refine ⟨by simp, ?_⟩
            intro c hc p hp
            simp only [Option.some.injEq] at hc
            subst hc
            have := hinv.1 hcur
            rw [this] at hp
            simp at hp
            simp [hp]
          | some c0 =>
            constructor
            · intro hnone
              by_cases hgt : otv.version > c0.version <;> simp [hgt] at hnone
            · intro c hc p hp
              simp only [List.mem_append, List.mem_singleton] at hp
              by_cases hgt : otv.version > c0.version
              · simp only [if_pos hgt, Option.some.injEq] at hc
                subst hc
                rcases hp with hp | hp
                · exact le_of_lt (lt_of_le_of_lt (hinv.2 c0 hcur p hp) hgt)
                · subst hp; exact le_refl _
              · simp only [if_neg hgt, Option.some.injEq] at hc
                subst hc
                rcases hp with hp | hp
                · exact hinv.2 c0 hcur p hp
                · subst hp; exact Nat.le_of_not_lt hgt
        have hres := ih _ st hstep h
        refine ⟨hres.1, ?_⟩
        intro hnone
        have := hres.2 hnone
        exfalso
        cases hcur : acc.current with
        | none => rw [hcur] at this; simp at this
        | some c0 =>
          rw [hcur] at this
          by_cases hgt : otv.version > c0.version <;> simp [hgt] at this

/-- C1: for every Register of a declared type: if the gathered candidate is
`typeEqual` to the highest stored version, its version number is reused and
the types bucket is unchanged; otherwise the candidate gets version
`Current.Version + 1` — or 1 when nothing is stored — and its packed schema
is appended to the types bucket. -/
theorem register_version_decision_correct
    (tb : List (List Nat × TypeVersion)) (tv : TypeVersion) (st : SchemaLoad)
    (h : loadSchemas tb = .ok st) (hod : tv.ondiskVersion = ondiskVersion1) :
    (st.current = none →
      tb = [] ∧
      registerVersionDecision tb tv =
        .ok ⟨1, tb ++ [(encodeBE 4 1, { tv with version := 1 })]⟩) ∧
    (∀ cur, st.current = some cur →
      (∀ p ∈ st.versions, p.1 ≤ cur.version) ∧
      (cur.typeEqual tv = true →
        registerVersionDecision tb tv = .ok ⟨cur.version, tb⟩) ∧
      (cur.typeEqual tv = false →
        registerVersionDecision tb tv =
          .ok ⟨cur.version + 1,
               tb ++ [(encodeBE 4 (cur.version + 1),
                       { tv with version := cur.version + 1 })]⟩)) := by
  have hinv0 : SchemaInv ⟨[], none⟩ := ⟨fun _ => rfl, by intro c hc; cases hc⟩
  have hinv := loadSchemasGo_inv tb ⟨[], none⟩ st hinv0 h
  have hpack : ∀ v : Nat, packSchema { tv with version := v } =
      .ok (encodeBE 4 v, { tv with version := v }) := by
    intro v
    simp [packSchema, hod]
  constructor
  · intro hnone
    refine ⟨(hinv.2 hnone).2, ?_⟩
    simp only [registerVersionDecision, h, hnone, hpack 1]
  · intro cur hcur
    refine ⟨hinv.1.2 cur hcur, ?_, ?_⟩
    · intro heq
      simp only [registerVersionDecision, h, hcur, heq, if_true]
    · intro hne
      simp only [registerVersionDecision, h, hcur, hne, Bool.false_eq_true, if_false,
        hpack (cur.version + 1)]

/-- Witness for C1: with version 1 of { ID int } stored, re-registering the
same shape keeps version 1 and writes nothing, while registering
{ ID int; Name string } is assigned version 2 and appended to the types
bucket. -/
theorem register_version_decision_correct_witness :
    registerVersionDecision exTypesBucket exTV1cand = .ok ⟨1, exTypesBucket⟩ ∧
    registerVersionDecision exTypesBucket exTV2 =
      .ok ⟨2, exTypesBucket ++ [(encodeBE 4 2, { exTV2 with version := 2 })]⟩ := by
  constructor
  · exact (((register_version_decision_correct exTypesBucket exTV1cand
      ⟨[(1, exTV1)], some exTV1⟩ (by rfl) (by rfl)).2 exTV1 rfl).2.1) (by rfl)
  · exact (((register_version_decision_correct exTypesBucket exTV2
      ⟨[(1, exTV1)], some exTV1⟩ (by rfl) (by rfl)).2 exTV1 rfl).2.2) (by rfl)

theorem lookupIndex_mem {l : List Index} {x : String} {idx : Index}
    (h : lookupIndex l x = some idx) : idx ∈ l ∧ idx.name = x := by
  refine ⟨List.mem_of_find?_eq_some h, ?_⟩
  have := List.find?_some h
  simpa [beq_iff_eq] using this

theorem lookupIndex_eq_of_nodup {l : List Index} {x : String} {idx : Index}
    (hnd : (l.map Index.name).Nodup) (hm : idx ∈ l) (hn : idx.name = x) :
    lookupIndex l x = some idx := by
  induction l with
  | nil => cases hm
  | cons a as ih =>
    simp only [List.map_cons, List.nodup_cons] at hnd
    rcases List.mem_cons.mp hm with hm | hm
    · subst hm
      simp [lookupIndex, List.find?, hn]
    · have hax : a.name ≠ x := by
        intro hax
        exact hnd.1 (List.mem_map.mpr ⟨idx, hm, hn.trans hax.symm⟩)
      simp only [lookupIndex, List.find?]
      rw [show (a.name == x) = false by simp [hax]]
      exact ih hnd.2 hm

theorem fieldWidened_none {otv : TypeVersion} {f : Field}
    (h : otv.fields.find? (fun of => of.name == f.name) = none) :
    fieldWidened otv f = false := by
  rw [fieldWidened, h]

theorem fieldWidened_some {otv : TypeVersion} {f of : Field}
    (h : otv.fields.find? (fun of => of.name == f.name) = some of) :
    fieldWidened otv f = (of.type.compatible f.type == .ok true) := by
  rw [fieldWidened, h]

theorem claimIndexDropped_none {otv ntv : TypeVersion} {x : String}
    (h : lookupIndex otv.indices x = none) :
    claimIndexDropped otv ntv x = false := by
  rw [claimIndexDropped, h]

theorem claimIndexDropped_some_none {otv ntv : TypeVersion} {x : String} {idx : Index}
    (h1 : lookupIndex otv.indices x = some idx)
    (h2 : lookupIndex ntv.indices x = none) :
    claimIndexDropped otv ntv x = true := by
  rw [claimIndexDropped, h1, h2]

theorem claimIndexDropped_some_some {otv ntv : TypeVersion} {x : String}
    {idx nidx : Index}
    (h1 : lookupIndex otv.indices x = some idx)
    (h2 : lookupIndex ntv.indices x = some nidx) :
    claimIndexDropped otv ntv x =
      (idx.unique != nidx.unique ||
       !(idx.fields.length == nidx.fields.length && fieldsTypeEqual idx.fields nidx.fields) ||
       memberFieldWidened otv ntv idx) := by
  rw [claimIndexDropped, h1, h2]

theorem checkTypesGo_mem (otv : TypeVersion) :
    ∀ (l : List Field) (acc r : List String), checkTypesGo otv l acc = .ok r →
      ∀ x, x ∈ r ↔ x ∈ acc ∨ WidenedName otv l x := by
  intro l
  induction l with
  | nil =>
    intro acc r h x
    simp only [checkTypesGo] at h
    cases h
    simp [WidenedName]
  | cons f rest ih =>
    intro acc r h x
    simp only [checkTypesGo] at h
    cases hf : otv.fields.find? (fun of => of.name == f.name) with
    | none =>
      simp only [hf] at h
      rw [ih acc r h x]
      constructor
      · rintro (hx | hx)
        · exact Or.inl hx
        · exact Or.inr (by
            obtain ⟨g, hg, hw, hi⟩ := hx
            exact ⟨g, List.mem_cons_of_mem _ hg, hw, hi⟩)
      · rintro (hx | ⟨g, hg, hw, hi⟩)
        · exact Or.inl hx
        · rcases List.mem_cons.mp hg with hg | hg
          · subst hg
            rw [fieldWidened_none hf] at hw
            cases hw
          · exact Or.inr ⟨g, hg, hw, hi⟩
    | some of =>
      simp only [hf] at h
      cases hc : of.type.compatible f.type with
      | panic => simp only [hc] at h; cases h
      | err => simp only [hc] at h; cases h
      | ok incr =>
        simp only [hc] at h
        have hwf : fieldWidened otv f = (incr == true) := by
          rw [fieldWidened_some hf, hc]
          cases incr <;> rfl
        cases incr with
        | true =>
          rw [if_pos rfl] at h
          rw [ih _ r h x]
          simp only [List.mem_append]
          constructor
          · rintro ((hx | hx) | hx)
            · exact Or.inl hx
            · exact Or.inr ⟨f, List.mem_cons_self f rest, by simp [hwf], hx⟩
            · obtain ⟨g, hg, hw, hi⟩ := hx
              exact Or.inr ⟨g, List.mem_cons_of_mem _ hg, hw, hi⟩
          · rintro (hx | ⟨g, hg, hw, hi⟩)
            · exact Or.inl (Or.inl hx)
            · rcases List.mem_cons.mp hg with hg | hg
              · subst hg
                exact Or.inl (Or.inr hi)
              · exact Or.inr ⟨g, hg, hw, hi⟩
        | false =>
          rw [if_neg (by simp)] at h
          rw [ih acc r h x]
          constructor
          · rintro (hx | hx)
            · exact Or.inl hx
            · obtain ⟨g, hg, hw, hi⟩ := hx
              exact Or.inr ⟨g, List.mem_cons_of_mem _ hg, hw, hi⟩
          · rintro (hx | ⟨g, hg, hw, hi⟩)
            · exact Or.inl hx
            · rcases List.mem_cons.mp hg with hg | hg
              · subst hg
                rw [hwf] at hw
                cases hw
              · exact Or.inr ⟨g, hg, hw, hi⟩

theorem mem_indicesWithField {indices : List Index} {fname x : String} :
    x ∈ indicesWithField indices fname ↔
      ∃ idx ∈ indices, idx.name = x ∧ indexHasField idx fname = true := by
  simp only [indicesWithField, List.mem_map, List.mem_filter]
  constructor
  · rintro ⟨idx, ⟨hm, hf⟩, hn⟩
    exact ⟨idx, hm, hn, hf⟩
  · rintro ⟨idx, hm, hn, hf⟩
    exact ⟨idx, ⟨hm, hf⟩, hn⟩

theorem mem_recreate_iff {otv ntv : TypeVersion} {R : List String}
    (hO : (otv.indices.map Index.name).Nodup)
    (hct : checkTypes otv ntv = .ok R) (x : String) :
    x ∈ R ↔ ∃ idx, lookupIndex otv.indices x = some idx ∧
      memberFieldWidened otv ntv idx = true := by
  rw [checkTypesGo_mem otv ntv.fields [] R hct x]
  simp only [List.not_mem_nil, false_or]
  constructor
  · rintro ⟨f, hf, hw, hi⟩
    obtain ⟨idx, hm, hn, hhas⟩ := mem_indicesWithField.mp hi
    refine ⟨idx, lookupIndex_eq_of_nodup hO hm hn, ?_⟩
    simp only [memberFieldWidened, List.any_eq_true]
    exact ⟨f, hf, by simp [hhas, hw]⟩
  · rintro ⟨idx, hl, hw⟩
    obtain ⟨hm, hn⟩ := lookupIndex_mem hl
    simp only [memberFieldWidened, List.any_eq_true, Bool.and_eq_true] at hw
    obtain ⟨f, hf, hhas, hwide⟩ := hw
    exact ⟨f, hf, hwide, mem_indicesWithField.mpr ⟨idx, hm, hn, hhas⟩⟩

theorem contains_iff_mem {l : List String} {a : String} : l.contains a = true ↔ a ∈ l := by
  simp [List.contains, List.elem_iff]

/-- Given equal names, the claim's "field list or uniqueness changed" is
the negation of the code's `index.typeEqual`, modulo a member widening
disjunct on both sides. -/
theorem claim_drop_eq {idx nidx : Index} (hname : (idx.name == nidx.name) = true)
    (w : Bool) :
    (idx.unique != nidx.unique ||
      !(idx.fields.length == nidx.fields.length && fieldsTypeEqual idx.fields nidx.fields) ||
      w)
    = (!(idx.typeEqual nidx) || w) := by
  rw [Index.typeEqual, hname]
  show (!(idx.unique == nidx.unique) || _ || _) = _
  generalize (idx.unique == nidx.unique) = u
  generalize (idx.fields.length == nidx.fields.length) = l
  generalize (fieldsTypeEqual idx.fields nidx.fields) = f
  cases u <;> cases l <;> cases f <;> cases w <;> rfl

/-- C4: for a previously stored type getting a new typeVersion, an existing
index bucket is deleted if and only if the index no longer exists in the
new version, or its field list or uniqueness changed, or a member field was
widened; an unchanged index is neither dropped nor recreated. -/
theorem register_index_drop_iff (otv ntv : TypeVersion)
    (hO : (otv.indices.map Index.name).Nodup)
    (hN : (ntv.indices.map Index.name).Nodup)
    (dropped created : List String)
    (hdrop : registerDroppedIndices otv ntv = .ok dropped)
    (hcreate : registerCreatedIndices otv ntv = .ok created) :
    (∀ x, x ∈ dropped ↔ claimIndexDropped otv ntv x = true) ∧
    (∀ x idx nidx, lookupIndex otv.indices x = some idx →
        lookupIndex ntv.indices x = some nidx →
        idx.typeEqual nidx = true → memberFieldWidened otv ntv idx = false →
        x ∉ dropped ∧ x ∉ created) := by
  cases hct : checkTypes otv ntv with
  | panic => rw [registerDroppedIndices, hct] at hdrop; cases hdrop
  | err => rw [registerDroppedIndices, hct] at hdrop; cases hdrop
  | ok R =>
    rw [registerDroppedIndices, hct] at hdrop
    rw [registerCreatedIndices, hct] at hcreate
    cases hdrop
    cases hcreate
    have hRmem := mem_recreate_iff hO hct
    have hname_eq : ∀ {x : String} {idx nidx : Index},
        lookupIndex otv.indices x = some idx → lookupIndex ntv.indices x = some nidx →
        (idx.name == nidx.name) = true := by
      intro x idx nidx h1 h2
      have e1 := (lookupIndex_mem h1).2
      have e2 := (lookupIndex_mem h2).2
      simp [e1, e2]
    have hfwd : ∀ x, x ∈
        ((otv.indices.filter (fun idx => R.contains idx.name)).map Index.name ++
         ((otv.indices.filter (fun idx => !R.contains idx.name)).filter (fun idx =>
            match lookupIndex ntv.indices idx.name with
            | none => true
            | some nidx => !idx.typeEqual nidx)).map Index.name) ↔
        claimIndexDropped otv ntv x = true := by
      intro x
      simp only [List.mem_append, List.mem_map, List.mem_filter]
      constructor
      · rintro (⟨idx, ⟨hm, hR⟩, hn⟩ | ⟨idx, ⟨⟨hm, hnR⟩, hcond⟩, hn⟩)
        · -- deleted at register.go:148-155 because the recreate set names it
          have hx : x ∈ R := hn ▸ contains_iff_mem.mp hR
          obtain ⟨idx0, hl0, hw0⟩ := (hRmem x).mp hx
          cases hlN : lookupIndex ntv.indices x with
          | none => exact claimIndexDropped_some_none hl0 hlN
          | some nidx =>
            rw [claimIndexDropped_some_some hl0 hlN, hw0]
            simp
        · -- dropped at register.go:345-368
          have hl : lookupIndex otv.indices x = some idx :=
            lookupIndex_eq_of_nodup hO hm hn
          cases hlN : lookupIndex ntv.indices x with
          | none => exact claimIndexDropped_some_none hl hlN
          | some nidx =>
            simp only [hn, hlN] at hcond
            rw [claimIndexDropped_some_some hl hlN, claim_drop_eq (hname_eq hl hlN),
              hcond]
            rfl
      · intro hc
        cases hlO : lookupIndex otv.indices x with
        | none => rw [claimIndexDropped_none hlO] at hc; cases hc
        | some idx =>
          obtain ⟨hm, hn⟩ := lookupIndex_mem hlO
          by_cases hR : x ∈ R
          · exact Or.inl ⟨idx, ⟨hm, by rw [hn]; exact contains_iff_mem.mpr hR⟩, hn⟩
          · refine Or.inr ⟨idx, ⟨⟨hm, by simp [hn, contains_iff_mem, hR]⟩, ?_⟩, hn⟩
            cases hlN : lookupIndex ntv.indices x with
            | none => simp [hn, hlN]
            | some nidx =>
              rw [claimIndexDropped_some_some hlO hlN,
                claim_drop_eq (hname_eq hlO hlN)] at hc
              rcases Bool.or_eq_true_iff.mp hc with hne | hw
              · simp only [hn, hlN]; exact hne
              · exact absurd ((hRmem x).mpr ⟨idx, hlO, hw⟩) hR
    refine ⟨hfwd, ?_⟩
    intro x idx nidx hlO hlN heq hw
    have hxR : x ∉ R := by
      intro hx
      obtain ⟨idx0, hl0, hw0⟩ := (hRmem x).mp hx
      rw [hlO] at hl0
      cases hl0
      rw [hw] at hw0
      cases hw0
    constructor
    · rw [hfwd x, claimIndexDropped_some_some hlO hlN,
        claim_drop_eq (hname_eq hlO hlN), heq, hw]
      simp
    · intro hmem
      obtain ⟨nidx2, hmf2, hn2⟩ := List.mem_map.mp hmem
      obtain ⟨hm2, hcond2⟩ := List.mem_filter.mp hmf2
      have : lookupIndex ntv.indices x = some nidx2 :=
        lookupIndex_eq_of_nodup hN hm2 hn2
      rw [hlN] at this
      cases this
      obtain ⟨hmO, hnO⟩ := lookupIndex_mem hlO
      have hmrem : idx ∈ otv.indices.filter (fun idx => !R.contains idx.name) :=
        List.mem_filter.mpr ⟨hmO, by simp [hnO, contains_iff_mem, hxR]⟩
      have hndrem : ((otv.indices.filter (fun idx => !R.contains idx.name)).map
          Index.name).Nodup :=
        hO.sublist ((List.filter_sublist otv.indices).map Index.name)
      have hlrem : lookupIndex (otv.indices.filter (fun idx => !R.contains idx.name)) x
          = some idx := lookupIndex_eq_of_nodup hndrem hmrem hnO
      rw [hn2, hlrem] at hcond2
      simp [heq] at hcond2

/-- Witness for C4: widening ID from int8 to int16 drops (exactly) the ID
index, matching the claim's condition, and the unchanged Name index is
neither dropped nor recreated. -/
theorem register_index_drop_iff_witness :
    ("ID" ∈ (["ID"] : List String) ↔ claimIndexDropped exOtvC4 exNtvC4 "ID" = true) ∧
    ("Name" ∉ (["ID"] : List String) ∧ "Name" ∉ (["ID"] : List String)) := by
  have h := register_index_drop_iff exOtvC4 exNtvC4 (by decide) (by decide)
    ["ID"] ["ID"] (by rfl) (by rfl)
  exact ⟨h.1 "ID", h.2 "Name" exIdxName exIdxName (by rfl) (by rfl) (by rfl) (by rfl)⟩

theorem lexLt_irrefl : ∀ a : List Nat, lexLt a a = false
  | [] => rfl
  | x :: xs => by simp [lexLt, lexLt_irrefl xs]

theorem lexLt_trans (a : List Nat) :
    ∀ b c, lexLt a b = true → lexLt b c = true → lexLt a c = true := by
  induction a with
  | nil =>
    intro b c h1 h2
    cases b with
    | nil => simp [lexLt] at h1
    | cons y ys =>
      cases c with
      | nil => simp [lexLt] at h2
      | cons z zs => simp [lexLt]
  | cons x xs ih =>
    intro b c h1 h2
    cases b with
    | nil => simp [lexLt] at h1
    | cons y ys =>
      cases c with
      | nil => simp [lexLt] at h2
      | cons z zs =>
        simp only [lexLt, Bool.or_eq_true, Bool.and_eq_true, decide_eq_true_eq,
          beq_iff_eq] at h1 h2 ⊢
        rcases h1 with h1 | ⟨h1e, h1r⟩
        · rcases h2 with h2 | ⟨h2e, h2r⟩
          · exact Or.inl (by omega)
          · exact Or.inl (by omega)
        · rcases h2 with h2 | ⟨h2e, h2r⟩
          · exact Or.inl (by omega)
          · exact Or.inr ⟨by omega, ih ys zs h1r h2r⟩

theorem lexLt_trichotomy (a : List Nat) :
    ∀ b, lexLt a b = true ∨ a = b ∨ lexLt b a = true := by
  induction a with
  | nil =>
    intro b
    cases b with
    | nil => exact Or.inr (Or.inl rfl)
    | cons y ys => exact Or.inl (by simp [lexLt])
  | cons x xs ih =>
    intro b
    cases b with
    | nil => exact Or.inr (Or.inr (by simp [lexLt]))
    | cons y ys =>
      rcases Nat.lt_trichotomy x y with hxy | hxy | hxy
      · exact Or.inl (by simp [lexLt, hxy])
      · subst hxy
        rcases ih ys with h | h | h
        · exact Or.inl (by simp [lexLt, h])
        · exact Or.inr (Or.inl (by rw [h]))
        · exact Or.inr (Or.inr (by simp [lexLt, h]))
      · exact Or.inr (Or.inr (by simp [lexLt, hxy]))

theorem lexLt_asymm {a b : List Nat} (h : lexLt a b = true) : lexLt b a = false := by
  cases hba : lexLt b a with
  | false => rfl
  | true =>
    have := lexLt_trans a b a h hba
    rw [lexLt_irrefl] at this
    cases this

theorem keyLe_total (a b : IKey) : keyLe a b ∨ keyLe b a := by
  simp only [keyLe, Bool.not_eq_true']
  cases hba : lexLt b.buf a.buf with
  | false => exact Or.inl rfl
  | true => exact Or.inr (lexLt_asymm hba)

theorem keyLe_trans (a b c : IKey) (h1 : keyLe a b) (h2 : keyLe b c) : keyLe a c := by
  simp only [keyLe, Bool.not_eq_true'] at h1 h2 ⊢
  cases hca : lexLt c.buf a.buf with
  | false => rfl
  | true =>
    rcases lexLt_trichotomy b.buf c.buf with hbc | hbc | hbc
    · have := lexLt_trans _ _ _ hbc hca
      rw [h1] at this
      cases this
    · rw [hbc, hca] at h1
      cases h1
    · rw [h2] at hbc
      cases hbc

theorem insertKeysGo_ok (uq : Bool) :
    ∀ (l : List IKey) (prev : Option IKey),
      (uq = true → hasAdjacentDup (withPrev prev l) = false) →
      insertKeysGo uq prev l = .ok (l.map IKey.buf) := by
  intro l
  induction l with
  | nil => intro prev _; cases prev <;> rfl
  | cons k rest ih =>
    intro prev hnd
    cases uq with
    | false =>
      simp only [insertKeysGo]
      rw [ih (some k) (by intro h; cases h)]
      rfl
    | true =>
      have hnd' := hnd rfl
      cases prev with
      | none =>
        simp only [insertKeysGo]
        rw [ih (some k) (fun _ => hnd')]
        rfl
      | some p =>
        rw [withPrev, hasAdjacentDup, Bool.or_eq_false_iff] at hnd'
        simp only [insertKeysGo, hnd'.1]
        rw [ih (some k) (fun _ => hnd'.2)]
        rfl

theorem insertKeysGo_err (uq : Bool) :
    ∀ (l : List IKey) (prev : Option IKey), uq = true →
      hasAdjacentDup (withPrev prev l) = true →
      insertKeysGo uq prev l = .error .errUnique := by
  intro l
  induction l with
  | nil =>
    intro prev hu hd
    exfalso
    cases prev <;> simp [withPrev, hasAdjacentDup] at hd
  | cons k rest ih =>
    intro prev hu hd
    subst hu
    cases prev with
    | none =>
      simp only [insertKeysGo]
      rw [ih (some k) rfl hd]
      rfl
    | some p =>
      rw [withPrev, hasAdjacentDup] at hd
      cases hbeq : (p.preBytes == k.preBytes) with
      | true => simp [insertKeysGo, hbeq]
      | false =>
        rw [hbeq, Bool.false_or] at hd
        simp only [insertKeysGo, hbeq]
        rw [ih (some k) rfl hd]
        rfl

theorem hasAdjacentDup_eq_false_of_pairwise {l : List IKey}
    (h : List.Pairwise (fun a b => (a.preBytes == b.preBytes) = false) l) :
    hasAdjacentDup l = false := by
  induction l with
  | nil => rfl
  | cons a rest ih =>
    cases rest with
    | nil => rfl
    | cons b rest2 =>
      rw [List.pairwise_cons] at h
      rw [hasAdjacentDup, h.1 b (List.mem_cons_self b rest2),
        ih h.2, Bool.or_self]

/-- C2: rebuilding an index sorts all its keys byte-wise and inserts them
in sorted order; for a unique index the rebuild aborts with `ErrUnique` if
and only if two adjacent keys of the sorted order have equal non-PK
prefixes; when no two keys share an equal prefix, every key is inserted and
the rebuild succeeds (and a non-unique rebuild always succeeds). -/
theorem register_index_rebuild (keys : List IKey) :
    ((sortIndexKeys keys).Perm keys ∧
     List.Pairwise keyLe (sortIndexKeys keys)) ∧
    ((∃ e, rebuildIndex true keys = .error e) ↔
      hasAdjacentDup (sortIndexKeys keys) = true) ∧
    (∀ e, rebuildIndex true keys = .error e → e = .errUnique) ∧
    (List.Pairwise (fun a b => (a.preBytes == b.preBytes) = false) keys →
      rebuildIndex true keys = .ok ((sortIndexKeys keys).map IKey.buf)) ∧
    (rebuildIndex false keys = .ok ((sortIndexKeys keys).map IKey.buf)) := by
  have hperm : (sortIndexKeys keys).Perm keys := List.perm_insertionSort keyLe keys
  letI : IsTotal IKey keyLe := ⟨keyLe_total⟩
  letI : IsTrans IKey keyLe := ⟨keyLe_trans⟩
  have hsorted : List.Pairwise keyLe (sortIndexKeys keys) :=
    List.sorted_insertionSort keyLe keys
  refine ⟨⟨hperm, hsorted⟩, ?_, ?_, ?_, ?_⟩
  · constructor
    · rintro ⟨e, he⟩
      cases hd : hasAdjacentDup (sortIndexKeys keys) with
      | true => rfl
      | false =>
        rw [rebuildIndex, insertKeys,
          insertKeysGo_ok true (sortIndexKeys keys) none (fun _ => hd)] at he
        cases he
    · intro hd
      exact ⟨.errUnique, insertKeysGo_err true (sortIndexKeys keys) none rfl hd⟩
  · intro e he
    cases hd : hasAdjacentDup (sortIndexKeys keys) with
    | false =>
      rw [rebuildIndex, insertKeys,
        insertKeysGo_ok true (sortIndexKeys keys) none (fun _ => hd)] at he
      cases he
    | true =>
      rw [rebuildIndex, insertKeys,
        insertKeysGo_err true (sortIndexKeys keys) none rfl hd] at he
      cases he
      rfl
  · intro hpw
    have hpw2 : List.Pairwise (fun a b => (a.preBytes == b.preBytes) = false)
        (sortIndexKeys keys) :=
      (List.Perm.pairwise_iff (fun {x y} h => by
        rw [beq_eq_false_iff_ne] at h ⊢
        exact fun e => h e.symm) hperm).mpr hpw
    exact insertKeysGo_ok true (sortIndexKeys keys) none
      (fun _ => hasAdjacentDup_eq_false_of_pairwise hpw2)
  · exact insertKeysGo_ok false (sortIndexKeys keys) none (fun h => by cases h)

/-- Witness for C2: with all prefixes distinct the unique rebuild inserts
every key in sorted order; with a shared prefix the rebuild errors, and
that error is `ErrUnique`. -/
theorem register_index_rebuild_witness :
    rebuildIndex true exGoodKeys = .ok ((sortIndexKeys exGoodKeys).map IKey.buf) ∧
    (∃ e, rebuildIndex true exDupKeys = .error e) ∧
    (∀ e, rebuildIndex true exDupKeys = .error e → e = .errUnique) := by
  refine ⟨(register_index_rebuild exGoodKeys).2.2.2.1 (by decide), ?_, ?_⟩
  · exact (register_index_rebuild exDupKeys).2.1.mpr (by decide)
  · exact (register_index_rebuild exDupKeys).2.2.1

/-! ## Claim C7: advancing the autoincrement sequence when a primary key
loses noauto (register.go:160-185), over the spec-modelled PK codec -/

theorem encodeBE_length : ∀ w n : Nat, (encodeBE w n).length = w
  | 0, _ => rfl
  | w + 1, n => by simp [encodeBE, encodeBE_length w]

theorem decodeBE_encodeBE : ∀ w n : Nat, n < 256 ^ w → decodeBE (encodeBE w n) = n
  | 0, n, h => by
    rw [pow_zero] at h
    interval_cases n
    rfl
  | w + 1, n, h => by
    have hB : 0 < 256 ^ w := pow_pos (by norm_num) w
    rw [encodeBE, decodeBE, encodeBE_length,
      decodeBE_encodeBE w (n % 256 ^ w) (Nat.mod_lt _ hB), Nat.mul_comm]
    exact Nat.div_add_mod n (256 ^ w)

/-- Order of natural numbers through division and remainder by a positive
base. -/
theorem divmod_lt_iff {B n m : Nat} (_hB : 0 < B) :
    n < m ↔ (n / B < m / B ∨ (n / B = m / B ∧ n % B < m % B)) := by
  constructor
  · intro h
    rcases Nat.lt_or_ge (n / B) (m / B) with hq | hq
    · exact Or.inl hq
    · have hqe : n / B = m / B :=
        le_antisymm (Nat.div_le_div_right (le_of_lt h)) hq
      refine Or.inr ⟨hqe, ?_⟩
      rw [← Nat.div_add_mod n B, ← Nat.div_add_mod m B, hqe] at h
      exact Nat.lt_of_add_lt_add_left h
  · intro h
    rcases h with h | ⟨he, hm⟩
    · by_contra hnm
      push_neg at hnm
      have := Nat.div_le_div_right (c := B) hnm
      omega
    · rw [← Nat.div_add_mod n B, ← Nat.div_add_mod m B, he]
      exact Nat.add_lt_add_left hm _

/-- The spec's order-preservation of big-endian PK keys: byte-wise
comparison of two fixed-width encodings agrees with numeric order. -/
theorem encodeBE_lt_iff : ∀ w n m : Nat, n < 256 ^ w → m < 256 ^ w →
    (lexLt (encodeBE w n) (encodeBE w m) = true ↔ n < m)
  | 0, n, m, hn, hm => by
    rw [pow_zero] at hn hm
    interval_cases n
    interval_cases m
    simp [encodeBE, lexLt]
  | w + 1, n, m, hn, hm => by
    have hB : 0 < 256 ^ w := pow_pos (by norm_num) w
    have ih := encodeBE_lt_iff w (n % 256 ^ w) (m % 256 ^ w)
      (Nat.mod_lt _ hB) (Nat.mod_lt _ hB)
    rw [encodeBE, encodeBE]
    simp only [lexLt, Bool.or_eq_true, Bool.and_eq_true, decide_eq_true_eq,
      beq_iff_eq, ih]
    rw [divmod_lt_iff hB (n := n) (m := m)]

theorem lastKeyFrom_map_mono {α : Type} [LinearOrder α] {P : α → Prop}
    (f : α → List Nat)
    (hmono : ∀ a b, P a → P b → (lexLt (f a) (f b) = true ↔ a < b)) :
    ∀ (l : List α) (acc : Option α), (∀ a ∈ l, P a) → (∀ a, acc = some a → P a) →
      lastKeyFrom (acc.map f) (l.map f) = (listMaxFrom acc l).map f := by
  intro l
  induction l with
  | nil => intro acc _ _; cases acc <;> rfl
  | cons x xs ih =>
    intro acc hl hacc
    have hPx : P x := hl x (List.mem_cons_self x xs)
    have hxs : ∀ a ∈ xs, P a := fun a ha => hl a (List.mem_cons_of_mem x ha)
    cases acc with
    | none =>
      show lastKeyFrom ((some x).map f) (xs.map f) = (listMaxFrom (some x) xs).map f
      exact ih (some x) hxs (fun a ha => by cases ha; exact hPx)
    | some m =>
      have hPm : P m := hacc m rfl
      have hPmx : P (max m x) := by
        rcases max_choice m x with h | h
        · rw [h]; exact hPm
        · rw [h]; exact hPx
      have harg : (if lexLt (f m) (f x) then some (f x) else some (f m))
          = (some (max m x)).map f := by
        cases hc : lexLt (f m) (f x) with
        | true =>
          rw [max_eq_right (le_of_lt ((hmono m x hPm hPx).mp hc))]
          rfl
        | false =>
          have hmx : ¬ m < x := fun hlt => by
            rw [(hmono m x hPm hPx).mpr hlt] at hc
            cases hc
          rw [max_eq_left (le_of_not_lt hmx)]
          rfl
      show lastKeyFrom (if lexLt (f m) (f x) then some (f x) else some (f m)) (xs.map f)
          = (listMaxFrom (some (max m x)) xs).map f
      rw [harg]
      exact ih (some (max m x)) hxs (fun a ha => by cases ha; exact hPmx)

theorem listMaxFrom_spec {α : Type} [LinearOrder α] :
    ∀ (l : List α) (acc : Option α),
      (listMaxFrom acc l = none ↔ (l = [] ∧ acc = none)) ∧
      (∀ mx, listMaxFrom acc l = some mx →
        (mx ∈ l ∨ acc = some mx) ∧ (∀ p ∈ l, p ≤ mx) ∧
        (∀ a, acc = some a → a ≤ mx)) := by
  intro l
  induction l with
  | nil =>
    intro acc
    refine ⟨by simp [listMaxFrom], ?_⟩
    intro mx h
    cases acc with
    | none => cases h
    | some a =>
      cases h
      exact ⟨Or.inr rfl, by simp, fun a ha => by cases ha; exact le_refl _⟩
  | cons x xs ih =>
    intro acc
    cases acc with
    | none =>
      refine ⟨?_, ?_⟩
      · rw [listMaxFrom]
        constructor
        · intro h
          rcases ((ih (some x)).1).mp h with ⟨_, h2⟩
          cases h2
        · rintro ⟨h, _⟩
          cases h
      · intro mx h
        rw [listMaxFrom] at h
        obtain ⟨hmem, hub, haccb⟩ := (ih (some x)).2 mx h
        refine ⟨?_, ?_, ?_⟩
        · rcases hmem with hm | hm
          · exact Or.inl (List.mem_cons_of_mem x hm)
          · cases hm
            exact Or.inl (List.mem_cons_self x xs)
        · intro p hp
          rcases List.mem_cons.mp hp with hp | hp
          · subst hp; exact haccb p rfl
          · exact hub p hp
        · intro a ha
          cases ha
    | some m =>
      refine ⟨?_, ?_⟩
      · rw [listMaxFrom]
        constructor
        · intro h
          rcases ((ih (some (max m x))).1).mp h with ⟨_, h2⟩
          cases h2
        · rintro ⟨h, _⟩
          cases h
      · intro mx h
        rw [listMaxFrom] at h
        obtain ⟨hmem, hub, haccb⟩ := (ih (some (max m x))).2 mx h
        have hmmx : max m x ≤ mx := haccb _ rfl
        refine ⟨?_, ?_, ?_⟩
        · rcases hmem with hm | hm
          · exact Or.inl (List.mem_cons_of_mem x hm)
          · cases hm
            rcases max_choice m x with hc | hc
            · exact Or.inr (by rw [hc])
            · exact Or.inl (by rw [hc]; exact List.mem_cons_self x xs)
        · intro p hp
          rcases List.mem_cons.mp hp with hp | hp
          · rw [hp]
            exact le_trans (le_max_right m x) hmmx
          · exact hub p hp
        · intro a ha
          cases ha
          exact le_trans (le_max_left m x) hmmx

/-- C7 (unsigned integer primary keys): when the primary key loses noauto
and records exist, the sequence is set to the numeric value of the largest
stored primary key — the last key in byte order; with no records, or when
noauto is not lost, the sequence is unchanged. -/
theorem register_noauto_seq_uint (w seq : Nat) (pks : List Nat)
    (hb : ∀ p ∈ pks, p < 256 ^ w) :
    (pks = [] → ∀ oldNA newNA : Bool,
      registerNoautoSeqUint oldNA newNA (pks.map (encodeBE w)) seq = seq) ∧
    (∀ mx, listMaxQ pks = some mx →
      registerNoautoSeqUint true false (pks.map (encodeBE w)) seq = mx ∧
      mx ∈ pks ∧ (∀ p ∈ pks, p ≤ mx)) ∧
    (pks ≠ [] → ∃ mx, listMaxQ pks = some mx) ∧
    (∀ oldNA newNA : Bool, (oldNA && !newNA) = false →
      registerNoautoSeqUint oldNA newNA (pks.map (encodeBE w)) seq = seq) := by
  have hlast : lastKey (pks.map (encodeBE w)) = (listMaxQ pks).map (encodeBE w) := by
    rw [lastKey, listMaxQ]
    exact lastKeyFrom_map_mono (P := fun n => n < 256 ^ w) (encodeBE w)
      (fun a b ha hb2 => encodeBE_lt_iff w a b ha hb2) pks none hb
      (fun a ha => by cases ha)
  refine ⟨?_, ?_, ?_, ?_⟩
  · intro he oldNA newNA
    subst he
    cases oldNA <;> cases newNA <;> rfl
  · intro mx hmx
    have hmxmem : mx ∈ pks := by
      rcases ((listMaxFrom_spec pks none).2 mx hmx).1 with h | h
      · exact h
      · cases h
    have hmxlt : mx < 256 ^ w := hb mx hmxmem
    have hrw : registerNoautoSeqUint true false (pks.map (encodeBE w)) seq
        = match lastKey (pks.map (encodeBE w)) with
          | none => seq
          | some bk => decodeBE bk := rfl
    rw [hrw, hlast, listMaxQ] at *
    rw [hmx]
    exact ⟨decodeBE_encodeBE w mx hmxlt, hmxmem,
      ((listMaxFrom_spec pks none).2 mx hmx).2.1⟩
  · intro hne
    cases hq : listMaxQ pks with
    | none =>
      rw [listMaxQ] at hq
      exact absurd ((listMaxFrom_spec pks none).1.mp hq).1 hne
    | some mx => exact ⟨mx, rfl⟩
  · intro oldNA newNA h
    rw [registerNoautoSeqUint, h]
    rfl

theorem signOffset_sum (w : Nat) (hw : 0 < w) :
    signOffset w + signOffset w = ((256 ^ w : Nat) : Int) := by
  have hdvd : (2 : Nat) ∣ 256 ^ w := dvd_pow (by norm_num) (Nat.pos_iff_ne_zero.mp hw)
  have h2 : 256 ^ w / 2 * 2 = 256 ^ w := Nat.div_mul_cancel hdvd
  have h3 : ((256 ^ w : Nat) : Int) = ((256 ^ w / 2 : Nat) : Int) * 2 := by
    exact_mod_cast h2.symm
  rw [signOffset, h3]
  ring

theorem toNat_add_off_lt (w : Nat) (hw : 0 < w) {z : Int}
    (h1 : -signOffset w ≤ z) (h2 : z < signOffset w) :
    (z + signOffset w).toNat < 256 ^ w := by
  have hs := signOffset_sum w hw
  omega

/-- The spec's order-preservation for sign-flipped signed PK keys. -/
theorem packPKInt_lt_iff (w : Nat) (hw : 0 < w) (x y : Int)
    (hx1 : -signOffset w ≤ x) (hx2 : x < signOffset w)
    (hy1 : -signOffset w ≤ y) (hy2 : y < signOffset w) :
    (lexLt (packPKInt w x) (packPKInt w y) = true ↔ x < y) := by
  rw [packPKInt, packPKInt,
    encodeBE_lt_iff w _ _ (toNat_add_off_lt w hw hx1 hx2) (toNat_add_off_lt w hw hy1 hy2)]
  omega

/-- C7 (signed integer primary keys): when the primary key loses noauto and
records exist, the sequence is set to `uint64` of the numeric value of the
largest stored primary key (the last key in byte order under the sign-flip
encoding), which for a nonnegative value in range is that value itself;
with no records, or when noauto is not lost, the sequence is unchanged. -/
theorem register_noauto_seq_int (w seq : Nat) (hw : 0 < w) (pks : List Int)
    (hb : ∀ p ∈ pks, -signOffset w ≤ p ∧ p < signOffset w) :
    (pks = [] → ∀ oldNA newNA : Bool,
      registerNoautoSeqInt oldNA newNA w (pks.map (packPKInt w)) seq = seq) ∧
    (∀ mx, listMaxQ pks = some mx →
      registerNoautoSeqInt true false w (pks.map (packPKInt w)) seq = uint64Cast mx ∧
      (0 ≤ mx → mx < (2 : Int) ^ 64 → uint64Cast mx = mx.toNat) ∧
      mx ∈ pks ∧ (∀ p ∈ pks, p ≤ mx)) ∧
    (pks ≠ [] → ∃ mx, listMaxQ pks = some mx) ∧
    (∀ oldNA newNA : Bool, (oldNA && !newNA) = false →
      registerNoautoSeqInt oldNA newNA w (pks.map (packPKInt w)) seq = seq) := by
  have hlast : lastKey (pks.map (packPKInt w)) = (listMaxQ pks).map (packPKInt w) := by
    rw [lastKey, listMaxQ]
    exact lastKeyFrom_map_mono
      (P := fun z => -signOffset w ≤ z ∧ z < signOffset w) (packPKInt w)
      (fun a b ha hb2 => packPKInt_lt_iff w hw a b ha.1 ha.2 hb2.1 hb2.2) pks none hb
      (fun a ha => by cases ha)
  refine ⟨?_, ?_, ?_, ?_⟩
  · intro he oldNA newNA
    subst he
    cases oldNA <;> cases newNA <;> rfl
  · intro mx hmx
    have hmxmem : mx ∈ pks := by
      rcases ((listMaxFrom_spec pks none).2 mx hmx).1 with h | h
      · exact h
      · cases h
    obtain ⟨hm1, hm2⟩ := hb mx hmxmem
    have hdec : decodeBE (packPKInt w mx) = (mx + signOffset w).toNat :=
      decodeBE_encodeBE w _ (toNat_add_off_lt w hw hm1 hm2)
    have hrw : registerNoautoSeqInt true false w (pks.map (packPKInt w)) seq
        = match lastKey (pks.map (packPKInt w)) with
          | none => seq
          | some bk => uint64Cast ((decodeBE bk : Int) - signOffset w) := rfl
    rw [hrw, hlast, listMaxQ] at *
    rw [hmx]
    have hval : ((decodeBE (packPKInt w mx) : Int) - signOffset w) = mx := by
      rw [hdec]
      omega
    refine ⟨?_, ?_, hmxmem, ((listMaxFrom_spec pks none).2 mx hmx).2.1⟩
    · show uint64Cast ((decodeBE (packPKInt w mx) : Int) - signOffset w) = uint64Cast mx
      rw [hval]
    · intro hge hlt
      rw [uint64Cast, Int.emod_eq_of_lt hge hlt]
  · intro hne
    cases hq : listMaxQ pks with
    | none =>
      rw [listMaxQ] at hq
      exact absurd ((listMaxFrom_spec pks none).1.mp hq).1 hne
    | some mx => exact ⟨mx, rfl⟩
  · intro oldNA newNA h
    rw [registerNoautoSeqInt, h]
    rfl

/-- C7: for a Register call in which the primary key loses the noauto tag
and at least one record exists, the records bucket's sequence is set to the
numeric value of the largest existing primary key — obtained from the last
key in byte order (for signed keys through the `uint64` conversion, which
is the value itself whenever it is nonnegative and in range); when no
records exist, or when noauto is not lost, the sequence is unchanged.
Stated for unsigned PKs of `w` bytes (`pksU`) and signed PKs (`pksI`). -/
theorem register_noauto_seq_correct (w seq : Nat) (hw : 0 < w)
    (pksU : List Nat) (pksI : List Int)
    (hbU : ∀ p ∈ pksU, p < 256 ^ w)
    (hbI : ∀ p ∈ pksI, -signOffset w ≤ p ∧ p < signOffset w) :
    ((pksU = [] → ∀ oldNA newNA : Bool,
        registerNoautoSeqUint oldNA newNA (pksU.map (encodeBE w)) seq = seq) ∧
     (∀ mx, listMaxQ pksU = some mx →
        registerNoautoSeqUint true false (pksU.map (encodeBE w)) seq = mx ∧
        mx ∈ pksU ∧ (∀ p ∈ pksU, p ≤ mx)) ∧
     (pksU ≠ [] → ∃ mx, listMaxQ pksU = some mx) ∧
     (∀ oldNA newNA : Bool, (oldNA && !newNA) = false →
        registerNoautoSeqUint oldNA newNA (pksU.map (encodeBE w)) seq = seq)) ∧
    ((pksI = [] → ∀ oldNA newNA : Bool,
        registerNoautoSeqInt oldNA newNA w (pksI.map (packPKInt w)) seq = seq) ∧
     (∀ mx, listMaxQ pksI = some mx →
        registerNoautoSeqInt true false w (pksI.map (packPKInt w)) seq
          = uint64Cast mx ∧
        (0 ≤ mx → mx < (2 : Int) ^ 64 → uint64Cast mx = mx.toNat) ∧
        mx ∈ pksI ∧ (∀ p ∈ pksI, p ≤ mx)) ∧
     (pksI ≠ [] → ∃ mx, listMaxQ pksI = some mx) ∧
     (∀ oldNA newNA : Bool, (oldNA && !newNA) = false →
        registerNoautoSeqInt oldNA newNA w (pksI.map (packPKInt w)) seq = seq)) :=
  ⟨register_noauto_seq_uint w seq pksU hbU, register_noauto_seq_int w seq hw pksI hbI⟩

/-- Witness for C7: with unsigned 2-byte PKs 3, 7, 5 stored, losing noauto
sets the sequence to 7; when noauto is not lost the sequence stays 99; with
signed PKs -5 and 3, losing noauto sets the sequence to 3. -/
theorem register_noauto_seq_witness :
    registerNoautoSeqUint true false ([3, 7, 5].map (encodeBE 2)) 99 = 7 ∧
    registerNoautoSeqUint true true ([3, 7, 5].map (encodeBE 2)) 99 = 99 ∧
    registerNoautoSeqInt true false 2 ([(-5 : Int), 3].map (packPKInt 2)) 99
      = uint64Cast 3 ∧
    uint64Cast 3 = (3 : Int).toNat := by
  have h := register_noauto_seq_correct 2 99 (by norm_num) [3, 7, 5]
    [(-5 : Int), 3] (by decide) (by decide)
  refine ⟨(h.1.2.1 7 (by decide)).1, h.1.2.2.2 true true rfl, ?_, ?_⟩
  · exact (h.2.2.1 3 (by decide)).1
  · exact (h.2.2.1 3 (by decide)).2.1 (by decide) (by decide)

/-- C6 counterexample: a declared type whose field graph references another
struct shape still gets OndiskVersion 1 (not 2), and a schema stored with
OndiskVersion 2 is rejected by parseSchema instead of accepted. -/
theorem ondisk_version_two_counterexample :
    (gatherTypeVersionBase exC6Fields false = .ok exC6TV1 ∧
      exC6TV1.ondiskVersion = 1 ∧ ¬exC6TV1.ondiskVersion = 2) ∧
    parseSchema (encodeBE 4 1) exC6TV2 = .error .internal :=
  ⟨⟨rfl, rfl, by decide⟩, rfl⟩

/-- C6 amended: every typeVersion gathered at registration has
OndiskVersion 1 regardless of its field graph, and parseSchema accepts only
schemas with OndiskVersion 1. -/
theorem ondisk_version_always_one :
    (∀ fields noauto tv, gatherTypeVersionBase fields noauto = .ok tv →
      tv.ondiskVersion = ondiskVersion1) ∧
    (∀ bk bv tv, parseSchema bk bv = .ok tv → tv.ondiskVersion = ondiskVersion1) := by
  constructor
  · intro fields noauto tv h
    cases fields with
    | nil => cases h
    | cons pk rest =>
      rw [gatherTypeVersionBase] at h
      by_cases hc : (noauto && !isIntKind pk.type.kind) = true
      · rw [if_pos hc] at h; cases h
      · rw [if_neg hc] at h
        cases h
        rfl
  · intro bk bv tv h
    rw [parseSchema] at h
    by_cases h1 : (bk.length != 4) = true
    · rw [if_pos h1] at h; cases h
    · rw [if_neg h1] at h
      by_cases h2 : (bv.version != decodeBE bk) = true
      · rw [if_pos h2] at h; cases h
      · rw [if_neg h2] at h
        by_cases h3 : (bv.ondiskVersion != ondiskVersion1) = true
        · rw [if_pos h3] at h; cases h
        · rw [if_neg h3] at h
          cases h
          simpa using h3

/-- Witness for the amended C6. -/
theorem ondisk_version_always_one_witness :
    exC6TV1.ondiskVersion = ondiskVersion1 ∧ exTV1.ondiskVersion = ondiskVersion1 :=
  ⟨ondisk_version_always_one.1 exC6Fields false exC6TV1 rfl,
   ondisk_version_always_one.2 (encodeBE 4 1) exTV1 exTV1 rfl⟩

/-- C8: Register's reference checks fail — with ErrType — exactly when some
registered type references a type not registered in the same call, or some
registered type is recorded (via ReferencedBy) as referenced by a type not
registered in the same call.  On failure the enclosing write transaction is
rolled back by `db.Write`, so nothing is registered. -/
theorem register_reference_checks_iff (registered : List RegEntry) :
    registerReferenceChecks registered = .error .errType ↔
      ((∃ st ∈ registered, ∃ n ∈ st.references, ¬∃ r ∈ registered, r.name = n) ∨
       (∃ st ∈ registered, ∃ n ∈ st.referencedBy, ¬∃ r ∈ registered, r.name = n)) := by
  have hconv : ∀ l : List String,
      ((l.all (fun n => (registered.map RegEntry.name).contains n)) = true) ↔
        ∀ n ∈ l, ∃ r ∈ registered, r.name = n := by
    intro l
    rw [List.all_eq_true]
    constructor
    · intro h n hn
      have := h n hn
      rw [contains_iff_mem] at this
      obtain ⟨r, hr, hrn⟩ := List.mem_map.mp this
      exact ⟨r, hr, hrn⟩
    · intro h n hn
      rw [contains_iff_mem]
      obtain ⟨r, hr, hrn⟩ := h n hn
      exact List.mem_map.mpr ⟨r, hr, hrn⟩
  have hall : ∀ f : RegEntry → List String,
      ((registered.all (fun st => (f st).all
        (fun n => (registered.map RegEntry.name).contains n))) = true) ↔
        ∀ st ∈ registered, ∀ n ∈ f st, ∃ r ∈ registered, r.name = n := by
    intro f
    rw [List.all_eq_true]
    exact ⟨fun h st hst => (hconv (f st)).mp (h st hst),
      fun h st hst => (hconv (f st)).mpr (h st hst)⟩
  rw [registerReferenceChecks, checkReferencesRegistered, checkReferencedByRegistered]
  by_cases h1 : (registered.all (fun st => st.references.all
      (fun n => (registered.map RegEntry.name).contains n))) = true
  · rw [if_pos h1]
    by_cases h2 : (registered.all (fun st => st.referencedBy.all
        (fun n => (registered.map RegEntry.name).contains n))) = true
    · rw [if_pos h2]
      refine iff_of_false (by intro h; cases h) ?_
      rintro (⟨st, hst, n, hn, hne⟩ | ⟨st, hst, n, hn, hne⟩)
      · exact hne ((hall (fun st => st.references)).mp h1 st hst n hn)
      · exact hne ((hall (fun st => st.referencedBy)).mp h2 st hst n hn)
    · rw [if_neg h2]
      refine iff_of_true rfl (Or.inr ?_)
      rw [hall (fun st => st.referencedBy)] at h2
      push_neg at h2
      obtain ⟨st, hst, n, hn, hne⟩ := h2
      exact ⟨st, hst, n, hn, by push_neg; exact hne⟩
  · rw [if_neg h1]
    refine iff_of_true rfl (Or.inl ?_)
    rw [hall (fun st => st.references)] at h1
    push_neg at h1
    obtain ⟨st, hst, n, hn, hne⟩ := h1
    exact ⟨st, hst, n, hn, by push_neg; exact hne⟩

/-- C10: a Register call that includes a type whose name is already present
in the runtime registry fails with ErrParam, whatever the declared shape —
also when the shape is unchanged from the stored one. -/
theorem register_duplicate_name_errParam
    (typeNames : List String) (ts : List (String × TypeVersion))
    (n : String) (tv : TypeVersion)
    (hn : n ∈ typeNames) (hts : (n, tv) ∈ ts) :
    registerTypeNames typeNames ts = .error .errParam := by
  induction ts generalizing typeNames with
  | nil => cases hts
  | cons hd rest ih =>
    obtain ⟨m, mtv⟩ := hd
    rw [registerTypeNames]
    by_cases hc : (typeNames.contains m) = true
    · rw [if_pos hc]
    · rw [if_neg hc]
      rcases List.mem_cons.mp hts with he | he
      · cases he
        exact absurd (contains_iff_mem.mpr hn) hc
      · exact ih (typeNames ++ [m]) (List.mem_append.mpr (Or.inl hn)) he

/-- Witness for C10: re-registering the name User — with the stored,
unchanged shape — fails with ErrParam. -/
theorem register_duplicate_name_errParam_witness :
    registerTypeNames ["User"] [("User", exTV1)] = .error .errParam :=
  register_duplicate_name_errParam ["User"] [("User", exTV1)] "User" exTV1
    (List.mem_singleton.mpr rfl) (List.mem_singleton.mpr rfl)

end BStore
